import Mathlib

/-!
Verification model for the gravity-dispatcher core.

The repository sources available here are the dispatcher processor tests
(`pkg/dispatcher/processor_test.go`) and the product manager
(`pkg/system/internal/product.go`).  The processor, schema decoder and
rule manager implementations are not part of the sources, so those parts
are modelled from the specification (each such definition carries a
`Modelled from the spec:` doc comment); `product.go` is embedded directly
from its code.
-/

namespace GravityDispatcher

/-- JSON value tree; numbers are modelled as integers (no claim involves
floating point payloads). -/
inductive Json where
  | num (i : Int)
  | str (s : String)
  | bool (b : Bool)
  | null
  | arr (xs : List Json)
  | obj (fields : List (String × Json))

/-- Modelled from the spec: decoded record value, a tagged variant over the
leaf types plus map and array composites (spec section 3, Record). -/
inductive Value where
  | vInt (i : Int)
  | vStr (s : String)
  | vBool (b : Bool)
  | vNull
  | vArr (xs : List Value)
  | vMap (fields : List (String × Value))

/-- Modelled from the spec: schema type tree with leaf and composite types
(spec section 3, Schema).  The leaves exercised by the claims are kept;
`tAny` passes values through untouched. -/
inductive SchemaType where
  | tInt
  | tString
  | tBool
  | tAny
  | tMap (fields : List (String × SchemaType))
  | tArray (sub : SchemaType)

mutual
/-- Untyped conversion of JSON into a record value (used by the `any` type). -/
def jsonToValue : Json → Value
  | .num i => .vInt i
  | .str s => .vStr s
  | .bool b => .vBool b
  | .null => .vNull
  | .arr xs => .vArr (jsonListToValue xs)
  | .obj fs => .vMap (jsonFieldsToValue fs)

def jsonListToValue : List Json → List Value
  | [] => []
  | j :: rest => jsonToValue j :: jsonListToValue rest

def jsonFieldsToValue : List (String × Json) → List (String × Value)
  | [] => []
  | (k, j) :: rest => (k, jsonToValue j) :: jsonFieldsToValue rest
end

/-- First binding of a name in a JSON object. -/
def getField : List (String × Json) → String → Option Json
  | [], _ => none
  | (k, v) :: rest, name => if k = name then some v else getField rest name

/-- First binding of a name in a schema field list. -/
def lookupSchema : List (String × SchemaType) → String → Option SchemaType
  | [], _ => none
  | (k, t) :: rest, name => if k = name then some t else lookupSchema rest name

def intOfDigits : List Char → Int → Option Int
  | [], acc => some acc
  | c :: rest, acc =>
    if '0' ≤ c ∧ c ≤ '9' then intOfDigits rest (acc * 10 + (c.toNat - 48 : Nat))
    else none

/-- Base-10 integer parse of a string (optional leading minus);
`none` on empty or non-numeric input. -/
def intOfString? (s : String) : Option Int :=
  match s.data with
  | [] => none
  | '-' :: rest => (if rest = [] then none else intOfDigits rest 0).map (fun i => -i)
  | cs => intOfDigits cs 0

/-- Modelled from the spec: coercion into `int` (spec section 4.1): string is
base-10 parsed and dropped when non-numeric; bool maps to 0/1. -/
def coerceInt : Json → Option Value
  | .num i => some (.vInt i)
  | .str s => (intOfString? s).map .vInt
  | .bool b => some (.vInt (if b then 1 else 0))
  | _ => none

/-- Modelled from the spec: coercion into `string` (spec section 4.1):
numbers become their decimal representation. -/
def coerceString : Json → Option Value
  | .str s => some (.vStr s)
  | .num i => some (.vStr (toString i))
  | _ => none

/-- Modelled from the spec: coercion into `bool` (spec section 4.1):
0/1 map to false/true, other numerics are dropped. -/
def coerceBool : Json → Option Value
  | .bool b => some (.vBool b)
  | .num 0 => some (.vBool false)
  | .num 1 => some (.vBool true)
  | _ => none

mutual
/-- Modelled from the spec: structural coercion of a JSON value against a
schema node (spec sections 3 and 4.1); `none` marks an irrecoverable
mismatch, in which case the field is dropped by the caller. -/
def coerce : SchemaType → Json → Option Value
  | .tInt, j => coerceInt j
  | .tString, j => coerceString j
  | .tBool, j => coerceBool j
  | .tAny, j => some (jsonToValue j)
  | .tMap fields, .obj fs => some (.vMap (decodeObj fields fs))
  | .tMap _, _ => none
  | .tArray sub, .arr xs => some (.vArr (coerceArr sub xs))
  | .tArray _, _ => none

/-- Coerce the fields of a nested JSON object: unknown names and
uncoercible values are dropped. -/
def decodeObj (schema : List (String × SchemaType)) :
    List (String × Json) → List (String × Value)
  | [] => []
  | (k, j) :: rest =>
    match lookupSchema schema k with
    | none => decodeObj schema rest
    | some t =>
      match coerce t j with
      | none => decodeObj schema rest
      | some v => (k, v) :: decodeObj schema rest

/-- Coerce the elements of a JSON array; uncoercible elements are dropped. -/
def coerceArr (sub : SchemaType) : List Json → List Value
  | [] => []
  | j :: rest =>
    match coerce sub j with
    | none => coerceArr sub rest
    | some v => v :: coerceArr sub rest
end

/-- Decode the top-level fields of a record in schema declaration order:
each schema field that is present and coercible contributes one output
field; absent, unknown or uncoercible fields are dropped. -/
def decodeFields : List (String × SchemaType) → List (String × Json) → List (String × Value)
  | [], _ => []
  | (name, t) :: rest, fs =>
    match getField fs name with
    | none => decodeFields rest fs
    | some j =>
      match coerce t j with
      | none => decodeFields rest fs
      | some v => (name, v) :: decodeFields rest fs

def splitDotAux : List Char → List Char → List String → List String
  | [], cur, acc => (String.mk cur.reverse :: acc).reverse
  | c :: rest, cur, acc =>
    if c = '.' then splitDotAux rest [] (String.mk cur.reverse :: acc)
    else splitDotAux rest (c :: cur) acc

/-- Split a key on `.` into its path segments. -/
def splitPath (s : String) : List String :=
  splitDotAux s.data [] []

def natOfDigits : List Char → Nat → Option Nat
  | [], acc => some acc
  | c :: rest, acc =>
    if '0' ≤ c ∧ c ≤ '9' then natOfDigits rest (acc * 10 + (c.toNat - 48))
    else none

/-- A path segment denotes an array index exactly when it is all digits. -/
def segIndex? (s : String) : Option Nat :=
  match s.data with
  | [] => none
  | cs => natOfDigits cs 0

/-- Set a field of a JSON object, replacing an existing binding in place or
appending a new one. -/
def setField : List (String × Json) → String → Json → List (String × Json)
  | [], k, v => [(k, v)]
  | (k0, v0) :: rest, k, v =>
    if k0 = k then (k, v) :: rest else (k0, v0) :: setField rest k v

/-- Set an element of a JSON array, padding with nulls past the end. -/
def setIndex : List Json → Nat → Json → List Json
  | [], 0, v => [v]
  | [], Nat.succ i, v => Json.null :: setIndex [] i v
  | _ :: rest, 0, v => v :: rest
  | x :: rest, Nat.succ i, v => x :: setIndex rest i v

/-- Insert a value at a dotted path: numeric segments index arrays, other
segments name object fields; intermediate containers are created or
re-typed as needed. -/
def insertPath : List String → Json → Json → Json
  | [], v, _ => v
  | seg :: rest, v, c =>
    match segIndex? seg with
    | some i =>
      let xs := match c with | .arr xs => xs | _ => []
      Json.arr (setIndex xs i (insertPath rest v (xs.getD i Json.null)))
    | none =>
      let fs := match c with | .obj fs => fs | _ => []
      Json.obj (setField fs seg (insertPath rest v ((getField fs seg).getD Json.null)))

/-- One key of a raw object folded into the resolved object accumulator. -/
def resolveStep (acc : List (String × Json)) (kv : String × Json) :
    List (String × Json) :=
  if kv.1 = "$removedFields" then setField acc kv.1 kv.2
  else
    match insertPath (splitPath kv.1) kv.2 (Json.obj acc) with
    | Json.obj fs => fs
    | _ => acc

/-- Modelled from the spec: partial-update decoding of a raw JSON object
(spec section 3): dotted keys are resolved into nested structures, numeric
segments into array indices, and the reserved key `$removedFields` is
retained as a distinguished top-level field. -/
def resolveFields (input : List (String × Json)) : List (String × Json) :=
  input.foldl resolveStep []

abbrev Record := List (String × Value)

/-- First binding of a name in a decoded record. -/
def lookupRec : Record → String → Option Value
  | [], _ => none
  | (k, v) :: rest, name => if k = name then some v else lookupRec rest name

def recordNames (r : Record) : List String := r.map Prod.fst

def schemaNames (schema : List (String × SchemaType)) : List String :=
  schema.map Prod.fst

/-- Read a JSON array as a list of strings, if every element is a string. -/
def jsonStrings? : List Json → Option (List String)
  | [] => some []
  | .str s :: rest => (jsonStrings? rest).map (s :: ·)
  | _ => none

/-- The `$removedFields` portion of a decoded record: a single top-level
field holding the array of removed path strings, when present. -/
def removedTail (resolved : List (String × Json)) : Record :=
  match getField resolved "$removedFields" with
  | some (Json.arr xs) =>
    match jsonStrings? xs with
    | some paths => [("$removedFields", Value.vArr (paths.map Value.vStr))]
    | none => []
  | _ => []

/-- Modelled from the spec: decode a raw JSON object against a schema
(spec sections 4.1 and 4.4 Parse): resolve dotted keys, coerce the fields
in schema order, and retain `$removedFields` as a top-level field. -/
def decodeRecord (schema : List (String × SchemaType))
    (rawObj : List (String × Json)) : Record :=
  decodeFields schema (resolveFields rawObj) ++ removedTail (resolveFields rawObj)

/-- Processing errors (spec section 6). -/
inductive PErr where
  | badInput
  | noRule
  | badSchema
  | scriptTimeout
  | missingPK
  | codecFailure
  | publishFailure
  | shutdown
  deriving DecidableEq, Repr

/-- Modelled from the spec: `Decode(schema, rawJSON)` (spec section 4.1).
A raw payload is represented by its parse result: `none` stands for
structurally unparseable JSON and yields `BadInput`; a parsed object is
decoded per field with drops instead of failures. -/
def decodePayload (schema : List (String × SchemaType)) :
    Option (List (String × Json)) → Except PErr Record
  | none => .error .badInput
  | some obj => .ok (decodeRecord schema obj)

/-- Rule handler: `none` is the identity transform, `script` an arbitrary
record transformation (spec section 4.3). -/
inductive Handler where
  | hnone
  | hscript (f : Record → List Record)

/-- Modelled from the spec: per-event rule (spec section 3): schema, primary
key, enabled output columns, optional filter and handler. -/
structure Rule where
  event : String
  product : String
  pk : List String
  schema : List (String × SchemaType)
  enabledColumns : List String
  filterFn : Option (Record → Bool)
  handler : Handler

/-- Output event of the pipeline (spec section 3, ProductEvent); the encoded
record bytes are represented by the record itself, the codec being an
external collaborator. -/
structure ProductEvent where
  eventName : String
  table : String
  primaryKeyValue : String
  payload : Record

def valueToPkString : Value → String
  | .vInt i => toString i
  | .vStr s => s
  | .vBool b => toString b
  | _ => ""

/-- Values of the primary-key fields of a record, `none` when any is absent. -/
def pkValues : List String → Record → Option (List Value)
  | [], _ => some []
  | k :: rest, r =>
    match lookupRec r k, pkValues rest r with
    | some v, some vs => some (v :: vs)
    | _, _ => none

/-- The 0x1F unit separator placed between concatenated PK field values. -/
def pkSep : String := String.mk [Char.ofNat 31]

/-- Field names surviving projection: enabled columns, `$removedFields`,
and the PK fields (spec section 4.4, Project). -/
def projectKeep (rule : Rule) (name : String) : Bool :=
  name ∈ rule.enabledColumns || name = "$removedFields" || name ∈ rule.pk

/-- Modelled from the spec: the Project stage (spec section 4.4): restrict
fields to `enabled_columns ∪ {"$removedFields"} ∪ pk`, and compute
`primary_key_value` by concatenating the PK field values with the 0x1F
separator; a missing PK field yields `Err(MissingPK)`. -/
def projectRecord (rule : Rule) (r : Record) : Except PErr ProductEvent :=
  match pkValues rule.pk r with
  | none => .error .missingPK
  | some vs =>
    .ok { eventName := rule.event
          table := rule.product
          primaryKeyValue := String.intercalate pkSep (vs.map valueToPkString)
          payload := r.filter (fun f => projectKeep rule f.1) }

/-- Project every transform output, failing on the first error. -/
def projectAll (rule : Rule) : List Record → Except PErr (List ProductEvent)
  | [] => .ok []
  | r :: rest =>
    match projectRecord rule r with
    | .error e => .error e
    | .ok ev =>
      match projectAll rule rest with
      | .error e => .error e
      | .ok evs => .ok (ev :: evs)

/-- Modelled from the spec: the Transform stage (spec section 4.3): the
`none` handler is the identity producing exactly one output record; a
script produces zero or more records. -/
def transformOutputs (h : Handler) (r : Record) : List Record :=
  match h with
  | .hnone => [r]
  | .hscript f => f r

/-- Modelled from the spec: the per-message pipeline of the Processor
(spec section 4.4), which is not part of the sources: parse (rule
resolution and payload decode), filter, transform, project.  A message is
the resolved rule (`none` when no rule is configured) together with the
parse result of its raw payload (`none` when unparseable). -/
def processMessage (rule? : Option Rule) (raw : Option (List (String × Json))) :
    Except PErr (List ProductEvent) :=
  match rule? with
  | none => .error .noRule
  | some rule =>
    match raw with
    | none => .error .badInput
    | some obj =>
      let decoded := decodeRecord rule.schema obj
      let pass := match rule.filterFn with
        | some f => f decoded
        | none => true
      if pass then
        projectAll rule (transformOutputs rule.handler decoded)
      else
        .ok []

/-- Message disposition after an error (spec section 7). -/
inductive Disposition where
  | dlqAck
  | perFieldDrop
  | nackRetry
  | nackRedeliver
  deriving DecidableEq, Repr

/-- Modelled from the spec: the error taxonomy policy table of spec
section 7. -/
def errorPolicy : PErr → Disposition
  | .badInput => .dlqAck
  | .noRule => .dlqAck
  | .badSchema => .perFieldDrop
  | .scriptTimeout => .dlqAck
  | .missingPK => .dlqAck
  | .codecFailure => .dlqAck
  | .publishFailure => .nackRetry
  | .shutdown => .nackRedeliver

/-- The schema used by the processor tests (`CreateTestRule` in
`processor_test.go`). -/
def testSchema : List (String × SchemaType) :=
  [("id", .tInt),
   ("name", .tString),
   ("gender", .tString),
   ("nested", .tMap [("nested_id", .tString)]),
   ("tags", .tArray .tString)]

/-- The rule used by the processor tests: event `dataCreated`, product
`TestDataProduct`, pk `[id]`, no filter, handler `none`; all schema
columns enabled. -/
def testRule : Rule :=
  { event := "dataCreated"
    product := "TestDataProduct"
    pk := ["id"]
    schema := testSchema
    enabledColumns := ["id", "name", "gender", "nested", "tags"]
    filterFn := none
    handler := .hnone }

/-- Modelled from the spec: the worker scheduling of the Processor (spec
sections 4.4 and 5).  Each message is routed to the worker returned by a
deterministic assignment of its partition key; each worker handles its
queue in FIFO order; outputs of different workers interleave arbitrarily.
An emission order `sched` is valid for a push order `inputs` when every
worker's emissions appear in exactly its per-worker push order. -/
def IsValidSchedule {α : Type} (assign : α → Nat) (inputs sched : List α) : Prop :=
  ∀ w, sched.filter (fun m => assign m = w) = inputs.filter (fun m => assign m = w)

/-- The rule index of the Rule Manager: product name to event name to rule
(spec section 4.2). -/
abbrev RuleIndex := List (String × List (String × Rule))

/-- Resolve a `(product, event)` pair in a rule index. -/
def getRuleIn (idx : RuleIndex) (product event : String) : Option Rule :=
  match idx.find? (fun p => p.1 = product) with
  | none => none
  | some (_, events) =>
    match events.find? (fun p => p.1 = event) with
    | none => none
    | some (_, r) => some r

/-- Operations interleaved against the Rule Manager: an atomic swap of the
whole index, or a Parse-stage rule resolution. -/
inductive RMOp where
  | replaceAll (idx : RuleIndex)
  | resolve (product event : String)

/-- Modelled from the spec: trace semantics of the Rule Manager under
copy-on-replace with an atomic reference swap (spec sections 4.2 and 5):
running the operations from state `st` yields, for each resolution, the
complete index snapshot it observed. -/
def rmViews (st : RuleIndex) : List RMOp → List RuleIndex
  | [] => []
  | .replaceAll idx :: rest => rmViews idx rest
  | .resolve _ _ :: rest => st :: rmViews st rest

/-- The indexes installed by the `replaceAll` operations of a trace. -/
def writtenIndexes (ops : List RMOp) : List RuleIndex :=
  ops.filterMap (fun op =>
    match op with
    | .replaceAll idx => some idx
    | _ => none)

/-- A NATS key-value entry (only the parts `product.go` reads). -/
structure KVEntry where
  key : String
  value : String
  deriving DecidableEq, Repr

/-- The NATS errors `product.go` distinguishes, plus an arbitrary other
error. -/
inductive NatsErr where
  | keyNotFound
  | invalidKey
  | otherErr (msg : String)
  deriving DecidableEq, Repr

/-- Result of `configStore.Get`: an entry, or a non-nil error. -/
abbrev KVGetResult := Except NatsErr KVEntry

/-- The Go `err` value of a `Get` call: `none` is Go's nil error. -/
def errOf : KVGetResult → Option NatsErr
  | .ok _ => none
  | .error e => some e

/-- Errors returned by `ProductManager.CreateProduct`. -/
inductive CreateErr where
  | productExistsAlready
  | invalidProductName
  | storeErr (e : NatsErr)
  deriving DecidableEq, Repr

/-- Embeds the pre-check of `CreateProduct` (`product.go` lines 48-56):
`if err != nats.ErrKeyNotFound` returns `ErrProductExistsAlready`, then
`if err == nats.ErrInvalidKey` returns `ErrInvalidProductName`. -/
def createProductPrecheck (g : KVGetResult) : Option CreateErr :=
  if errOf g ≠ some NatsErr.keyNotFound then some .productExistsAlready
  else if errOf g = some NatsErr.invalidKey then some .invalidProductName
  else none

/-- Embeds `CreateProduct` (`product.go` lines 46-76): the pre-check on the
config store `Get`, then the `Put`, mapping `nats.ErrInvalidKey` to
`ErrInvalidProductName` and passing other `Put` errors through. -/
def createProduct (g : KVGetResult) (put : Except NatsErr Unit) :
    Except CreateErr Unit :=
  match createProductPrecheck g with
  | some e => .error e
  | none =>
    match put with
    | .error NatsErr.invalidKey => .error .invalidProductName
    | .error e => .error (.storeErr e)
    | .ok _ => .ok ()

/-- A product setting as far as `ListProducts` is concerned; `default`
stands for Go's zero value left by a failed `json.Unmarshal`. -/
structure ProductSetting where
  name : String
  deriving DecidableEq, Repr, Inhabited

/-- Result of running a Go function that may dereference a nil pointer:
either a normal return or a runtime panic. -/
inductive GoResult (α : Type) where
  | ok (a : α)
  | nilPanic
  deriving DecidableEq, Repr

/-- The second loop of `ListProducts` (`product.go` lines 185-195): each
entry is dereferenced via `entry.Value()`; a nil entry (left by a failed
`Get`) panics; a failed unmarshal still appends the zero-value setting. -/
def derefEntries (unmarshal : String → Option ProductSetting) :
    List (Option KVEntry) → GoResult (List ProductSetting)
  | [] => .ok []
  | none :: _ => .nilPanic
  | some e :: rest =>
    match derefEntries unmarshal rest with
    | .nilPanic => .nilPanic
    | .ok ps => .ok ((unmarshal e.value).getD default :: ps)

/-- Embeds `ListProducts` (`product.go` lines 168-198): the `Keys` error is
discarded (`keys, _ :=`), a failed `Get` leaves the entry slot nil
(`continue`), and the function returns `products, nil`. -/
def listProducts (keysResult : List String × Option NatsErr)
    (get : String → KVGetResult)
    (unmarshal : String → Option ProductSetting) :
    GoResult (List ProductSetting × Option NatsErr) :=
  match derefEntries unmarshal (keysResult.1.map (fun k => (get k).toOption)) with
  | .nilPanic => .nilPanic
  | .ok ps => .ok (ps, none)

/-! ### General lemmas about records, lookups and the decoder -/

theorem lookupRec_isSome_of_mem {r : Record} {n : String}
    (h : n ∈ recordNames r) : ∃ v, lookupRec r n = some v := by
  induction r with
  | nil => simp [recordNames] at h
  | cons kv rest ih =>
    obtain ⟨k, v⟩ := kv
    by_cases hk : k = n
    · exact ⟨v, by simp [lookupRec, hk]⟩
    · simp [recordNames] at h
      rcases h with h | h
      · exact absurd h.symm hk
      · obtain ⟨w, hw⟩ := ih (by simpa [recordNames] using h)
        exact ⟨w, by simp [lookupRec, hk, hw]⟩

theorem mem_of_getField_some {fs : List (String × Json)} {n : String} {j : Json}
    (h : getField fs n = some j) : n ∈ fs.map Prod.fst := by
  induction fs with
  | nil => simp [getField] at h
  | cons kv rest ih =>
    obtain ⟨k, v⟩ := kv
    by_cases hk : k = n
    · simp [hk]
    · simp [getField, hk] at h
      simp [ih h]

theorem getField_eq_none_of_not_mem {fs : List (String × Json)} {n : String}
    (h : n ∉ fs.map Prod.fst) : getField fs n = none := by
  induction fs with
  | nil => rfl
  | cons kv rest ih =>
    obtain ⟨k, v⟩ := kv
    have hk : k ≠ n := fun he =>
      h (by rw [List.map_cons]; exact List.mem_cons.mpr (Or.inl he.symm))
    have hr : n ∉ rest.map Prod.fst := fun hm =>
      h (by rw [List.map_cons]; exact List.mem_cons_of_mem _ hm)
    simp [getField, hk, ih hr]

theorem getField_of_mem_nodup {fs : List (String × Json)} {n : String} {j : Json}
    (hnd : (fs.map Prod.fst).Nodup) (h : (n, j) ∈ fs) : getField fs n = some j := by
  induction fs with
  | nil => simp at h
  | cons kv rest ih =>
    obtain ⟨k, v⟩ := kv
    rw [List.map_cons, List.nodup_cons] at hnd
    rcases List.mem_cons.mp h with he | hm
    · cases he
      simp [getField]
    · have hk : k ≠ n := by
        intro hkn
        apply hnd.1
        subst hkn
        exact List.mem_map.mpr ⟨_, hm, rfl⟩
      simp [getField, hk, ih hnd.2 hm]

theorem lookupSchema_isSome_of_mem {schema : List (String × SchemaType)} {n : String}
    (h : n ∈ schemaNames schema) : ∃ t, lookupSchema schema n = some t := by
  induction schema with
  | nil => simp [schemaNames] at h
  | cons kv rest ih =>
    obtain ⟨k, t⟩ := kv
    by_cases hk : k = n
    · exact ⟨t, by simp [lookupSchema, hk]⟩
    · simp [schemaNames] at h
      rcases h with h | h
      · exact absurd h.symm hk
      · obtain ⟨t', ht'⟩ := ih (by simpa [schemaNames] using h)
        exact ⟨t', by simp [lookupSchema, hk, ht']⟩

theorem mem_schemaNames_of_mem_decodeFields {schema : List (String × SchemaType)}
    {fs : List (String × Json)} {n : String}
    (h : n ∈ recordNames (decodeFields schema fs)) : n ∈ schemaNames schema := by
  induction schema with
  | nil => simp [decodeFields, recordNames] at h
  | cons kv rest ih =>
    obtain ⟨k, t⟩ := kv
    rw [show schemaNames ((k, t) :: rest) = k :: schemaNames rest from rfl]
    rw [decodeFields] at h
    rcases hg : getField fs k with _ | j
    · simp only [hg] at h
      exact List.mem_cons_of_mem _ (ih h)
    · simp only [hg] at h
      rcases hc : coerce t j with _ | v
      · simp only [hc] at h
        exact List.mem_cons_of_mem _ (ih h)
      · simp only [hc] at h
        rw [show recordNames ((k, v) :: decodeFields rest fs)
              = k :: recordNames (decodeFields rest fs) from rfl] at h
        rcases List.mem_cons.mp h with he | hm
        · exact he ▸ List.mem_cons_self _ _
        · exact List.mem_cons_of_mem _ (ih hm)

theorem decodeFields_eq_nil {schema : List (String × SchemaType)}
    {fs : List (String × Json)}
    (h : ∀ p ∈ schema, getField fs p.1 = none) : decodeFields schema fs = [] := by
  induction schema with
  | nil => rfl
  | cons kv rest ih =>
    obtain ⟨k, t⟩ := kv
    rw [decodeFields, h (k, t) (by simp)]
    exact ih (fun p hp => h p (by simp [hp]))

theorem recordNames_filter (r : Record) (p : String → Bool) :
    recordNames (r.filter (fun f => p f.1)) = (recordNames r).filter p := by
  induction r with
  | nil => rfl
  | cons kv rest ih =>
    by_cases hp : p kv.1
    · simp [recordNames, List.filter, hp] at ih ⊢
      exact ih
    · simp [recordNames, List.filter, hp] at ih ⊢
      exact ih

theorem jsonStrings_map_str (paths : List String) :
    jsonStrings? (paths.map Json.str) = some paths := by
  induction paths with
  | nil => rfl
  | cons s rest ih => simp [jsonStrings?, ih]

theorem mem_removedTail_names {fs : List (String × Json)} {n : String}
    (h : n ∈ recordNames (removedTail fs)) : n = "$removedFields" := by
  unfold removedTail at h
  split at h
  · split at h
    · simpa [recordNames] using h
    · simp [recordNames] at h
  · simp [recordNames] at h

theorem filter_projectKeep_removedTail (rule : Rule) (fs : List (String × Json)) :
    (removedTail fs).filter (fun f => projectKeep rule f.1) = removedTail fs := by
  unfold removedTail
  split
  · split
    · simp [List.filter, projectKeep]
    · rfl
  · rfl

theorem pkValues_isSome {pk : List String} {r : Record}
    (h : ∀ k ∈ pk, ∃ v, lookupRec r k = some v) :
    ∃ vs, pkValues pk r = some vs := by
  induction pk with
  | nil => exact ⟨[], rfl⟩
  | cons k rest ih =>
    obtain ⟨v, hv⟩ := h k (by simp)
    obtain ⟨vs, hvs⟩ := ih (fun k' hk' => h k' (by simp [hk']))
    exact ⟨v :: vs, by simp [pkValues, hv, hvs]⟩

/-! ### Claim theorems -/

/-- C1: pushing `{"id":101,"name":"fred"}` through the pipeline with the test
rule (event `dataCreated`, product `TestDataProduct`, pk `[id]`, handler
`none`) produces exactly one ProductEvent named `dataCreated` on table
`TestDataProduct` with fields `id = 101` (coerced to int) and
`name = "fred"`, and primary_key_value `"101"`. -/
theorem c1_pipeline_concrete_output :
    processMessage (some testRule)
        (some [("id", Json.num 101), ("name", Json.str "fred")])
      = Except.ok [{ eventName := "dataCreated", table := "TestDataProduct",
                     primaryKeyValue := "101",
                     payload := [("id", Value.vInt 101), ("name", Value.vStr "fred")] }] :=
  rfl

/-- C2: the decoder resolves dotted keys into nested structures: `{"a.b": j}`
yields a nested map field `a` with value `{b: j}`; the numeric segment in
`{"xs.0": j}` yields an array field `xs` with value `[j]`; and
`{"$removedFields": paths}` yields a top-level field literally named
`$removedFields` whose value is the array of path strings. -/
theorem c2_dotted_key_resolution :
    (∀ j : Json, resolveFields [("a.b", j)] = [("a", Json.obj [("b", j)])])
    ∧ (∀ j : Json, resolveFields [("xs.0", j)] = [("xs", Json.arr [j])])
    ∧ (∀ (schema : List (String × SchemaType)) (paths : List String),
        "$removedFields" ∉ schemaNames schema →
        decodeRecord schema [("$removedFields", Json.arr (paths.map Json.str))]
          = [("$removedFields", Value.vArr (paths.map Value.vStr))])
    ∧ decodeRecord testSchema
        [("nested.nested_id", Json.str "hello"), ("tags.0", Json.str "new_tag1")]
      = [("nested", Value.vMap [("nested_id", Value.vStr "hello")]),
         ("tags", Value.vArr [Value.vStr "new_tag1"])] := by
  refine ⟨fun j => rfl, fun j => rfl, ?_, rfl⟩
  intro schema paths hn
  have hres : resolveFields [("$removedFields", Json.arr (paths.map Json.str))]
      = [("$removedFields", Json.arr (paths.map Json.str))] := rfl
  unfold decodeRecord
  rw [hres]
  have hnil : decodeFields schema [("$removedFields", Json.arr (paths.map Json.str))] = [] := by
    apply decodeFields_eq_nil
    intro p hp
    have : p.1 ≠ "$removedFields" := by
      intro he
      exact hn (he ▸ List.mem_map_of_mem Prod.fst hp)
    simp [getField, Ne.symm this]
  rw [hnil]
  simp [removedTail, getField, jsonStrings_map_str]

/-- Witness for C2 at a concrete schema and path list. -/
theorem c2_dotted_key_resolution_witness :
    "$removedFields" ∉ schemaNames testSchema
    ∧ decodeRecord testSchema [("$removedFields", Json.arr [Json.str "x"])]
        = [("$removedFields", Value.vArr [Value.vStr "x"])] := by
  refine ⟨by decide, ?_⟩
  have h := c2_dotted_key_resolution.2.2.1 testSchema ["x"] (by decide)
  simpa using h

/-- C6: a message whose PK field is absent from the record (here because
`{"id":"abc"}` fails int coercion and is dropped) makes the Project stage
return `Err(MissingPK)`, whose policy routes to the DLQ with the source
ACKed; when all PK fields are present, primary_key_value is the
concatenation of the PK field values separated by byte 0x1F. -/
theorem c6_missing_pk_policy :
    processMessage (some testRule) (some [("id", Json.str "abc")])
        = Except.error PErr.missingPK
    ∧ errorPolicy PErr.missingPK = Disposition.dlqAck
    ∧ (∀ (rule : Rule) (r : Record),
        pkValues rule.pk r = none →
        projectRecord rule r = Except.error PErr.missingPK)
    ∧ (∀ (rule : Rule) (r : Record) (vs : List Value),
        pkValues rule.pk r = some vs →
        ∃ ev, projectRecord rule r = Except.ok ev
          ∧ ev.primaryKeyValue = String.intercalate pkSep (vs.map valueToPkString)) := by
  refine ⟨rfl, rfl, ?_, ?_⟩
  · intro rule r h
    simp [projectRecord, h]
  · intro rule r vs h
    refine ⟨{ eventName := rule.event, table := rule.product,
              primaryKeyValue := String.intercalate pkSep (vs.map valueToPkString),
              payload := r.filter (fun f => projectKeep rule f.1) }, ?_, rfl⟩
    simp [projectRecord, h]

/-- Witness for C6 at concrete records, with and without the PK field. -/
theorem c6_missing_pk_policy_witness :
    pkValues testRule.pk ([] : Record) = none
    ∧ projectRecord testRule ([] : Record) = Except.error PErr.missingPK
    ∧ pkValues testRule.pk [("id", Value.vInt 7)] = some [Value.vInt 7]
    ∧ ∃ ev, projectRecord testRule [("id", Value.vInt 7)] = Except.ok ev
        ∧ ev.primaryKeyValue
            = String.intercalate pkSep ([Value.vInt 7].map valueToPkString) :=
  ⟨rfl, c6_missing_pk_policy.2.2.1 testRule [] rfl, rfl,
   c6_missing_pk_policy.2.2.2 testRule [("id", Value.vInt 7)] [Value.vInt 7] rfl⟩

/-- C8: under the atomic-swap trace semantics of the Rule Manager, every
rule resolution in flight observes a complete installed index: either the
initial one or one written by some `ReplaceAll`, never a mixture. -/
theorem c8_replace_all_atomic :
    ∀ (init : RuleIndex) (ops : List RMOp) (v : RuleIndex),
      v ∈ rmViews init ops → v = init ∨ v ∈ writtenIndexes ops := by
  intro init ops
  induction ops generalizing init with
  | nil => intro v hv; simp [rmViews] at hv
  | cons op rest ih =>
    intro v hv
    cases op with
    | replaceAll idx =>
      rw [rmViews] at hv
      have hw : writtenIndexes (RMOp.replaceAll idx :: rest)
          = idx :: writtenIndexes rest := rfl
      rcases ih idx v hv with h | h
      · subst h
        exact Or.inr (by rw [hw]; exact List.mem_cons_self _ _)
      · exact Or.inr (by rw [hw]; exact List.mem_cons_of_mem _ h)
    | resolve product event =>
      rw [rmViews] at hv
      have hw : writtenIndexes (RMOp.resolve product event :: rest)
          = writtenIndexes rest := rfl
      rcases List.mem_cons.mp hv with h | h
      · exact Or.inl h
      · rcases ih init v h with h' | h'
        · exact Or.inl h'
        · exact Or.inr (by rw [hw]; exact h')

/-- Witness for C8 on a concrete trace: one swap followed by one resolution
observing the swapped index. -/
theorem c8_replace_all_atomic_witness :
    ([(("p" : String), ([] : List (String × Rule)))] : RuleIndex) = []
    ∨ ([(("p" : String), ([] : List (String × Rule)))] : RuleIndex)
        ∈ writtenIndexes [RMOp.replaceAll [("p", [])], RMOp.resolve "p" "e"] :=
  c8_replace_all_atomic [] [RMOp.replaceAll [("p", [])], RMOp.resolve "p" "e"]
    [("p", [])] (by simp [rmViews])

/-- C9: in `CreateProduct`, any `Get` error other than `nats.ErrKeyNotFound`
(including `nats.ErrInvalidKey`) makes the call return
`ErrProductExistsAlready`; the subsequent `ErrInvalidKey` comparison is
unreachable, so the pre-check never returns `ErrInvalidProductName`. -/
theorem c9_create_product_precheck :
    (∀ (g : KVGetResult) (put : Except NatsErr Unit) (e : NatsErr),
        g = Except.error e → e ≠ NatsErr.keyNotFound →
        createProduct g put = Except.error CreateErr.productExistsAlready)
    ∧ ∀ (g : KVGetResult), createProductPrecheck g ≠ some CreateErr.invalidProductName := by
  constructor
  · intro g put e hg he
    subst hg
    simp [createProduct, createProductPrecheck, errOf, he]
  · intro g
    cases g with
    | ok entry => simp [createProductPrecheck, errOf]
    | error e =>
      by_cases he : e = NatsErr.keyNotFound
      · subst he
        simp [createProductPrecheck, errOf]
      · simp [createProductPrecheck, errOf, he]

/-- Witness for C9: `Get` failing with `nats.ErrInvalidKey` yields
`ErrProductExistsAlready`, not `ErrInvalidProductName`. -/
theorem c9_create_product_precheck_witness :
    (Except.error NatsErr.invalidKey : KVGetResult) = Except.error NatsErr.invalidKey
    ∧ NatsErr.invalidKey ≠ NatsErr.keyNotFound
    ∧ createProduct (Except.error NatsErr.invalidKey) (Except.ok ())
        = Except.error CreateErr.productExistsAlready
    ∧ createProductPrecheck (Except.error NatsErr.invalidKey)
        ≠ some CreateErr.invalidProductName :=
  ⟨rfl, by decide,
   c9_create_product_precheck.1 _ (Except.ok ()) _ rfl (by decide),
   c9_create_product_precheck.2 _⟩

/-- C10: `ListProducts` always returns a nil error when it returns at all,
and a failed `Get` leaves a nil entry whose `Value()` dereference panics,
so the function is not total. -/
theorem c10_list_products_unsafe :
    (∀ (kr : List String × Option NatsErr) (get : String → KVGetResult)
        (un : String → Option ProductSetting) (ps : List ProductSetting)
        (e : Option NatsErr),
        listProducts kr get un = GoResult.ok (ps, e) → e = none)
    ∧ listProducts (["p1"], none)
        (fun _ => Except.error (NatsErr.otherErr "get failed")) (fun _ => none)
      = GoResult.nilPanic := by
  constructor
  · intro kr get un ps e h
    unfold listProducts at h
    rcases hd : derefEntries un (kr.1.map (fun k => (get k).toOption)) with ps' | _
    · simp only [hd] at h
      simp at h
      exact h.2.symm
    · simp only [hd] at h
      simp at h
  · rfl

/-- Witness for C10 on a normally-returning call. -/
theorem c10_list_products_unsafe_witness :
    listProducts (([] : List String), none)
        (fun _ => Except.error (NatsErr.otherErr "x")) (fun _ => none)
      = GoResult.ok ([], none)
    ∧ (none : Option NatsErr) = none :=
  ⟨rfl, c10_list_products_unsafe.1 ([], none)
    (fun _ => Except.error (NatsErr.otherErr "x")) (fun _ => none) [] none rfl⟩

theorem recordNames_decodeFields_full {schema : List (String × SchemaType)}
    {fs : List (String × Json)}
    (h : ∀ p ∈ schema, ∃ j, getField fs p.1 = some j ∧ coerce p.2 j ≠ none) :
    recordNames (decodeFields schema fs) = schemaNames schema := by
  induction schema with
  | nil => rfl
  | cons kv rest ih =>
    obtain ⟨k, t⟩ := kv
    obtain ⟨j, hj, hc⟩ := h (k, t) (List.mem_cons_self _ _)
    rcases hcv : coerce t j with _ | v
    · exact absurd hcv hc
    · rw [decodeFields]
      simp only [hj, hcv]
      show k :: recordNames (decodeFields rest fs) = k :: schemaNames rest
      rw [ih (fun p hp => h p (List.mem_cons_of_mem _ hp))]

theorem not_mem_decodeFields_of_uncoercible {schema : List (String × SchemaType)}
    {fs : List (String × Json)} {n : String} {t : SchemaType} {j : Json}
    (hnd : (schemaNames schema).Nodup)
    (hl : lookupSchema schema n = some t)
    (hg : getField fs n = some j) (hc : coerce t j = none) :
    n ∉ recordNames (decodeFields schema fs) := by
  induction schema with
  | nil => simp [lookupSchema] at hl
  | cons kv rest ih =>
    obtain ⟨k, t0⟩ := kv
    rw [show schemaNames ((k, t0) :: rest) = k :: schemaNames rest from rfl,
        List.nodup_cons] at hnd
    rw [lookupSchema] at hl
    by_cases hk : k = n
    · subst hk
      rw [if_pos rfl] at hl
      cases hl
      intro hmem
      rw [decodeFields] at hmem
      simp only [hg, hc] at hmem
      exact hnd.1 (mem_schemaNames_of_mem_decodeFields hmem)
    · rw [if_neg hk] at hl
      intro hmem
      rw [decodeFields] at hmem
      rcases hg2 : getField fs k with _ | j2 <;> simp only [hg2] at hmem
      · exact ih hnd.2 hl hmem
      · rcases hc2 : coerce t0 j2 with _ | v2 <;> simp only [hc2] at hmem
        · exact ih hnd.2 hl hmem
        · rcases List.mem_cons.mp hmem with he | hm
          · exact hk he.symm
          · exact ih hnd.2 hl hm

theorem mem_decodeFields_iff {schema : List (String × SchemaType)}
    {fs : List (String × Json)} {n : String}
    (hnd : (schemaNames schema).Nodup) :
    n ∈ recordNames (decodeFields schema fs)
      ↔ ∃ t j v, lookupSchema schema n = some t ∧ getField fs n = some j
          ∧ coerce t j = some v := by
  induction schema with
  | nil => simp [decodeFields, recordNames, lookupSchema]
  | cons kv rest ih =>
    obtain ⟨k, t0⟩ := kv
    rw [show schemaNames ((k, t0) :: rest) = k :: schemaNames rest from rfl,
        List.nodup_cons] at hnd
    by_cases hk : k = n
    · subst hk
      constructor
      · intro hmem
        rw [decodeFields] at hmem
        rcases hg : getField fs k with _ | j <;> simp only [hg] at hmem
        · exact absurd (mem_schemaNames_of_mem_decodeFields hmem) hnd.1
        · rcases hc : coerce t0 j with _ | v <;> simp only [hc] at hmem
          · exact absurd (mem_schemaNames_of_mem_decodeFields hmem) hnd.1
          · refine ⟨t0, j, v, ?_, rfl, hc⟩
            rw [lookupSchema, if_pos rfl]
      · rintro ⟨t, j, v, hl, hg, hc⟩
        rw [lookupSchema, if_pos rfl] at hl
        cases hl
        rw [decodeFields]
        simp only [hg, hc]
        exact List.mem_cons.mpr (Or.inl rfl)
    · have ihs := ih hnd.2
      have hlrw : lookupSchema ((k, t0) :: rest) n = lookupSchema rest n := by
        rw [lookupSchema, if_neg hk]
      constructor
      · intro hmem
        rw [decodeFields] at hmem
        rcases hg : getField fs k with _ | j <;> simp only [hg] at hmem
        · obtain ⟨t, j', v, h1, h2, h3⟩ := ihs.mp hmem
          exact ⟨t, j', v, hlrw ▸ h1, h2, h3⟩
        · rcases hc : coerce t0 j with _ | v <;> simp only [hc] at hmem
          · obtain ⟨t, j', v, h1, h2, h3⟩ := ihs.mp hmem
            exact ⟨t, j', v, hlrw ▸ h1, h2, h3⟩
          · rcases List.mem_cons.mp hmem with he | hm
            · exact absurd he.symm hk
            · obtain ⟨t, j', v', h1, h2, h3⟩ := ihs.mp hm
              exact ⟨t, j', v', hlrw ▸ h1, h2, h3⟩
      · rintro ⟨t, j', v, hl, hg2, hc2⟩
        rw [hlrw] at hl
        have hmem := ihs.mpr ⟨t, j', v, hl, hg2, hc2⟩
        rw [decodeFields]
        rcases hg : getField fs k with _ | j <;> simp only [hg]
        · exact hmem
        · rcases hc : coerce t0 j with _ | v0 <;> simp only [hc]
          · exact hmem
          · exact List.mem_cons_of_mem _ hmem

theorem lookupRec_decodeFields {schema : List (String × SchemaType)}
    {fs : List (String × Json)} {n : String} {t : SchemaType} {j : Json} {v : Value}
    (hnd : (schemaNames schema).Nodup)
    (hl : lookupSchema schema n = some t) (hg : getField fs n = some j)
    (hc : coerce t j = some v) :
    lookupRec (decodeFields schema fs) n = some v := by
  induction schema with
  | nil => simp [lookupSchema] at hl
  | cons kv rest ih =>
    obtain ⟨k, t0⟩ := kv
    rw [show schemaNames ((k, t0) :: rest) = k :: schemaNames rest from rfl,
        List.nodup_cons] at hnd
    rw [lookupSchema] at hl
    by_cases hk : k = n
    · subst hk
      rw [if_pos rfl] at hl
      cases hl
      rw [decodeFields]
      simp only [hg, hc]
      simp [lookupRec]
    · rw [if_neg hk] at hl
      rw [decodeFields]
      rcases hg2 : getField fs k with _ | j2 <;> simp only [hg2]
      · exact ih hnd.2 hl
      · rcases hc2 : coerce t0 j2 with _ | v2 <;> simp only [hc2]
        · exact ih hnd.2 hl
        · simp [lookupRec, hk, ih hnd.2 hl]

theorem removedTail_eq_nil {fs : List (String × Json)}
    (h : getField fs "$removedFields" = none) : removedTail fs = [] := by
  unfold removedTail
  simp only [h]

theorem setField_eq_append {acc : List (String × Json)} {k : String} {v : Json}
    (h : k ∉ acc.map Prod.fst) : setField acc k v = acc ++ [(k, v)] := by
  induction acc with
  | nil => rfl
  | cons kv rest ih =>
    obtain ⟨k0, v0⟩ := kv
    have hk : k0 ≠ k := fun he =>
      h (by rw [List.map_cons]; exact List.mem_cons.mpr (Or.inl he.symm))
    have hr : k ∉ rest.map Prod.fst := fun hm =>
      h (by rw [List.map_cons]; exact List.mem_cons_of_mem _ hm)
    simp [setField, hk, ih hr]

theorem resolveStep_plain {acc : List (String × Json)} {k : String} {j : Json}
    (h1 : splitPath k = [k]) (h2 : segIndex? k = none) :
    resolveStep acc (k, j) = setField acc k j := by
  rw [resolveStep]
  by_cases hr : k = "$removedFields"
  · simp [hr]
  · simp only [hr, if_false]
    rw [h1]
    simp [insertPath, h2]

theorem foldl_resolveStep_plain (obj : List (String × Json)) :
    ∀ acc : List (String × Json),
    (∀ kv ∈ obj, splitPath kv.1 = [kv.1] ∧ segIndex? kv.1 = none) →
    (obj.map Prod.fst).Nodup →
    (∀ kv ∈ obj, kv.1 ∉ acc.map Prod.fst) →
    List.foldl resolveStep acc obj = acc ++ obj := by
  induction obj with
  | nil => intro acc _ _ _; simp
  | cons kv rest ih =>
    intro acc hplain hnd hfresh
    obtain ⟨k, j⟩ := kv
    obtain ⟨h1, h2⟩ := hplain (k, j) (List.mem_cons_self _ _)
    rw [List.foldl_cons, resolveStep_plain h1 h2,
        setField_eq_append (hfresh (k, j) (List.mem_cons_self _ _))]
    rw [List.map_cons, List.nodup_cons] at hnd
    rw [ih (acc ++ [(k, j)]) (fun kv hkv => hplain kv (List.mem_cons_of_mem _ hkv))
          hnd.2 ?_]
    · simp
    · intro kv hkv hmem
      rw [List.map_append] at hmem
      rcases List.mem_append.mp hmem with hm | hm
      · exact hfresh kv (List.mem_cons_of_mem _ hkv) hm
      · have hkk : kv.1 = k := by simpa using hm
        apply hnd.1
        rw [← hkk]
        exact List.mem_map.mpr ⟨kv, hkv, rfl⟩

theorem resolveFields_plain {obj : List (String × Json)}
    (hplain : ∀ kv ∈ obj, splitPath kv.1 = [kv.1] ∧ segIndex? kv.1 = none)
    (hnd : (obj.map Prod.fst).Nodup) :
    resolveFields obj = obj := by
  rw [resolveFields,
      foldl_resolveStep_plain obj [] hplain hnd (by intro kv _ hm; simp at hm)]
  simp

theorem projectKeep_testRule_of_mem {n : String}
    (h : n ∈ schemaNames testSchema) : projectKeep testRule n = true := by
  have he : n ∈ testRule.enabledColumns := h
  simp [projectKeep, he]

/-- C3: with a deterministic partition-key worker assignment and per-worker
FIFO emission (any valid schedule of the Processor's worker pools), the
subsequence of outputs sharing one PK value equals the subsequence of
inputs with that PK value: per-PK output order is push order. -/
theorem c3_per_pk_fifo {α : Type} (pkOf : α → String) (assign : α → Nat)
    (inputs sched : List α)
    (hdet : ∀ m m', pkOf m = pkOf m' → assign m = assign m')
    (hs : IsValidSchedule assign inputs sched) (v : String) :
    sched.filter (fun m => pkOf m = v) = inputs.filter (fun m => pkOf m = v) := by
  by_cases hex : ∃ m, (m ∈ inputs ∨ m ∈ sched) ∧ pkOf m = v
  · obtain ⟨m0, _, hm0⟩ := hex
    have key : ∀ l : List α,
        l.filter (fun m => decide (pkOf m = v))
          = (l.filter (fun m => decide (assign m = assign m0))).filter
              (fun m => decide (pkOf m = v)) := by
      intro l
      rw [List.filter_filter]
      refine List.filter_congr ?_
      intro x _
      by_cases hx : pkOf x = v
      · have hax : assign x = assign m0 := hdet x m0 (hx.trans hm0.symm)
        simp [hx, hax]
      · simp [hx]
    rw [key sched, key inputs, hs (assign m0)]
  · have h1 : sched.filter (fun m => decide (pkOf m = v)) = [] := by
      refine List.filter_eq_nil_iff.mpr ?_
      intro a ha hpa
      exact hex ⟨a, Or.inr ha, of_decide_eq_true hpa⟩
    have h2 : inputs.filter (fun m => decide (pkOf m = v)) = [] := by
      refine List.filter_eq_nil_iff.mpr ?_
      intro a ha hpa
      exact hex ⟨a, Or.inl ha, of_decide_eq_true hpa⟩
    rw [h1, h2]

/-- Witness for C3 on a concrete two-worker schedule interleaving two PK
streams. -/
theorem c3_per_pk_fifo_witness :
    List.filter (fun m => decide (Prod.snd m = "a"))
        [((2 : Nat), "b"), (1, "a"), (3, "a")]
      = List.filter (fun m => decide (Prod.snd m = "a"))
          [((1 : Nat), "a"), (2, "b"), (3, "a")] := by
  refine c3_per_pk_fifo Prod.snd (fun m => if m.2 = "a" then 0 else 1)
    [(1, "a"), (2, "b"), (3, "a")] [(2, "b"), (1, "a"), (3, "a")]
    (fun m m' h => by simp [h]) ?_ "a"
  intro w
  match w with
  | 0 => rfl
  | 1 => rfl
  | (n + 2) =>
    have e1 : List.filter
        (fun m => decide ((if Prod.snd m = "a" then (0 : Nat) else 1) = n + 2))
        [((2 : Nat), "b"), (1, "a"), (3, "a")] = [] := by
      refine List.filter_eq_nil_iff.mpr ?_
      intro a ha hpa
      fin_cases ha <;> simp at hpa
    have e2 : List.filter
        (fun m => decide ((if Prod.snd m = "a" then (0 : Nat) else 1) = n + 2))
        [((1 : Nat), "a"), (2, "b"), (3, "a")] = [] := by
      refine List.filter_eq_nil_iff.mpr ?_
      intro a ha hpa
      fin_cases ha <;> simp at hpa
    exact e1.trans e2.symm

/-- C5: decoding never fails a structurally parseable payload: `BadInput`
is returned exactly for unparseable JSON; an unknown field never appears
in the output, and a field whose value fails coercion is dropped from the
output rather than failing the message. -/
theorem c5_decode_drop_not_fail :
    (∀ (schema : List (String × SchemaType)) (raw : Option (List (String × Json)))
        (e : PErr),
        decodePayload schema raw = Except.error e ↔ raw = none ∧ e = PErr.badInput)
    ∧ (∀ (schema : List (String × SchemaType)) (obj : List (String × Json))
        (n : String),
        n ∉ schemaNames schema → n ≠ "$removedFields" →
        n ∉ recordNames (decodeRecord schema obj))
    ∧ (∀ (schema : List (String × SchemaType)) (obj : List (String × Json))
        (n : String) (t : SchemaType) (j : Json),
        (schemaNames schema).Nodup → n ≠ "$removedFields" →
        lookupSchema schema n = some t →
        getField (resolveFields obj) n = some j →
        coerce t j = none →
        n ∉ recordNames (decodeRecord schema obj)) := by
  refine ⟨?_, ?_, ?_⟩
  · intro schema raw e
    constructor
    · intro h
      cases raw with
      | none =>
        refine ⟨rfl, ?_⟩
        rw [decodePayload] at h
        exact (Except.error.injEq _ _ ▸ h.symm).symm ▸ rfl
      | some obj => simp [decodePayload] at h
    · rintro ⟨h1, h2⟩
      subst h1
      subst h2
      rfl
  · intro schema obj n hns hnr hmem
    rw [decodeRecord, recordNames, List.map_append] at hmem
    rcases List.mem_append.mp hmem with hm | hm
    · exact hns (mem_schemaNames_of_mem_decodeFields hm)
    · exact hnr (mem_removedTail_names hm)
  · intro schema obj n t j hnd hnr hl hg hc hmem
    rw [decodeRecord, recordNames, List.map_append] at hmem
    rcases List.mem_append.mp hmem with hm | hm
    · exact not_mem_decodeFields_of_uncoercible hnd hl hg hc hm
    · exact hnr (mem_removedTail_names hm)

/-- Witness for C5: an unknown field and an uncoercible int field are both
absent from the decoded record, at concrete inputs. -/
theorem c5_decode_drop_not_fail_witness :
    ("unknown" ∉ schemaNames testSchema ∧ "unknown" ≠ "$removedFields"
      ∧ "unknown" ∉ recordNames
          (decodeRecord testSchema [("unknown", Json.num 1), ("id", Json.num 5)]))
    ∧ ((schemaNames testSchema).Nodup
      ∧ lookupSchema testSchema "id" = some SchemaType.tInt
      ∧ getField (resolveFields [("id", Json.str "abc")]) "id" = some (Json.str "abc")
      ∧ coerce SchemaType.tInt (Json.str "abc") = none
      ∧ "id" ∉ recordNames (decodeRecord testSchema [("id", Json.str "abc")])) := by
  constructor
  · exact ⟨by decide, by decide,
      c5_decode_drop_not_fail.2.1 testSchema [("unknown", Json.num 1), ("id", Json.num 5)]
        "unknown" (by decide) (by decide)⟩
  · exact ⟨by decide, rfl, rfl, rfl,
      c5_decode_drop_not_fail.2.2 testSchema [("id", Json.str "abc")] "id"
        SchemaType.tInt (Json.str "abc") (by decide) (by decide) rfl rfl rfl⟩

/-- C4: with a `none` handler and no filter, a full valid input (every
schema field present and coercible after resolution) yields exactly one
output record, equal to the decoded input projected to the kept columns;
its field list is the schema-ordered restriction of the schema names to
`enabled_columns ∪ {"$removedFields"} ∪ pk`, followed by the
`$removedFields` field when present. -/
theorem c4_identity_transform_projection (rule : Rule) (obj : List (String × Json))
    (hh : rule.handler = Handler.hnone)
    (hfil : rule.filterFn = none)
    (hfull : ∀ p ∈ rule.schema,
      ∃ j, getField (resolveFields obj) p.1 = some j ∧ coerce p.2 j ≠ none)
    (hpk : ∀ k ∈ rule.pk, k ∈ schemaNames rule.schema) :
    ∃ ev, processMessage (some rule) (some obj) = Except.ok [ev]
      ∧ ev.payload
          = (decodeRecord rule.schema obj).filter (fun f => projectKeep rule f.1)
      ∧ recordNames ev.payload
          = (schemaNames rule.schema).filter (fun n => projectKeep rule n)
            ++ recordNames (removedTail (resolveFields obj)) := by
  have hnames : recordNames (decodeFields rule.schema (resolveFields obj))
      = schemaNames rule.schema := recordNames_decodeFields_full hfull
  have hdec : recordNames (decodeRecord rule.schema obj)
      = schemaNames rule.schema ++ recordNames (removedTail (resolveFields obj)) := by
    rw [decodeRecord, recordNames, List.map_append]
    rw [show (decodeFields rule.schema (resolveFields obj)).map Prod.fst
          = recordNames (decodeFields rule.schema (resolveFields obj)) from rfl, hnames]
    rfl
  obtain ⟨vs, hvs⟩ : ∃ vs, pkValues rule.pk (decodeRecord rule.schema obj) = some vs := by
    apply pkValues_isSome
    intro k hk
    apply lookupRec_isSome_of_mem
    rw [hdec]
    exact List.mem_append_left _ (hpk k hk)
  refine ⟨{ eventName := rule.event, table := rule.product,
            primaryKeyValue := String.intercalate pkSep (vs.map valueToPkString),
            payload := (decodeRecord rule.schema obj).filter
              (fun f => projectKeep rule f.1) }, ?_, rfl, ?_⟩
  · rw [processMessage]
    simp only [hfil, hh, transformOutputs, if_true]
    rw [projectAll, projectRecord, hvs, projectAll]
  · rw [recordNames_filter, hdec, List.filter_append]
    congr 1
    rw [← recordNames_filter, filter_projectKeep_removedTail]

/-- Witness for C4 on the concrete test rule and a full input payload. -/
theorem c4_identity_transform_projection_witness :
    testRule.handler = Handler.hnone
    ∧ testRule.filterFn = none
    ∧ (∀ p ∈ testRule.schema,
        ∃ j, getField (resolveFields
            [("id", Json.num 9), ("name", Json.str "n"), ("gender", Json.str "g"),
             ("nested", Json.obj [("nested_id", Json.str "x")]),
             ("tags", Json.arr [Json.str "t"])]) p.1 = some j ∧ coerce p.2 j ≠ none)
    ∧ (∀ k ∈ testRule.pk, k ∈ schemaNames testRule.schema)
    ∧ ∃ ev, processMessage (some testRule)
          (some [("id", Json.num 9), ("name", Json.str "n"), ("gender", Json.str "g"),
                 ("nested", Json.obj [("nested_id", Json.str "x")]),
                 ("tags", Json.arr [Json.str "t"])]) = Except.ok [ev]
        ∧ ev.payload = (decodeRecord testRule.schema
              [("id", Json.num 9), ("name", Json.str "n"), ("gender", Json.str "g"),
               ("nested", Json.obj [("nested_id", Json.str "x")]),
               ("tags", Json.arr [Json.str "t"])]).filter
                (fun f => projectKeep testRule f.1)
        ∧ recordNames ev.payload
            = (schemaNames testRule.schema).filter (fun n => projectKeep testRule n)
              ++ recordNames (removedTail (resolveFields
                  [("id", Json.num 9), ("name", Json.str "n"), ("gender", Json.str "g"),
                   ("nested", Json.obj [("nested_id", Json.str "x")]),
                   ("tags", Json.arr [Json.str "t"])])) := by
  have hfull : ∀ p ∈ testRule.schema,
      ∃ j, getField (resolveFields
          [("id", Json.num 9), ("name", Json.str "n"), ("gender", Json.str "g"),
           ("nested", Json.obj [("nested_id", Json.str "x")]),
           ("tags", Json.arr [Json.str "t"])]) p.1 = some j ∧ coerce p.2 j ≠ none := by
    intro p hp
    fin_cases hp
    · exact ⟨Json.num 9, rfl, by simp [coerce, coerceInt]⟩
    · exact ⟨Json.str "n", rfl, by simp [coerce, coerceString]⟩
    · exact ⟨Json.str "g", rfl, by simp [coerce, coerceString]⟩
    · exact ⟨Json.obj [("nested_id", Json.str "x")], rfl, by simp [coerce]⟩
    · exact ⟨Json.arr [Json.str "t"], rfl, by simp [coerce]⟩
  have hpk : ∀ k ∈ testRule.pk, k ∈ schemaNames testRule.schema := by
    intro k hk
    fin_cases hk
    decide
  exact ⟨rfl, rfl, hfull, hpk,
    c4_identity_transform_projection testRule _ rfl rfl hfull hpk⟩

/-- C7: for the test rule, a payload holding any schema-allowed subset of
plain fields (all coercible) produces one output whose record has exactly
the fields present in that payload — no fewer and no extra — each carrying
the input's coerced value. -/
theorem c7_subset_fields_exact (obj : List (String × Json))
    (hplain : ∀ kv ∈ obj,
      splitPath kv.1 = [kv.1] ∧ segIndex? kv.1 = none ∧ kv.1 ≠ "$removedFields")
    (hnodup : (obj.map Prod.fst).Nodup)
    (hsub : ∀ kv ∈ obj, kv.1 ∈ schemaNames testSchema)
    (hco : ∀ kv ∈ obj, ∀ t, lookupSchema testSchema kv.1 = some t →
      coerce t kv.2 ≠ none)
    (hpk : "id" ∈ obj.map Prod.fst) :
    ∃ ev, processMessage (some testRule) (some obj) = Except.ok [ev]
      ∧ (∀ n, n ∈ recordNames ev.payload ↔ n ∈ obj.map Prod.fst)
      ∧ (∀ n j t, (n, j) ∈ obj → lookupSchema testSchema n = some t →
          lookupRec ev.payload n = coerce t j) := by
  have hres : resolveFields obj = obj :=
    resolveFields_plain
      (fun kv hkv => ⟨(hplain kv hkv).1, (hplain kv hkv).2.1⟩) hnodup
  have hrm : "$removedFields" ∉ obj.map Prod.fst := by
    intro hm
    obtain ⟨kv, hkv, he⟩ := List.mem_map.mp hm
    exact (hplain kv hkv).2.2 he
  have hrt : removedTail obj = [] :=
    removedTail_eq_nil (getField_eq_none_of_not_mem hrm)
  have hdec : decodeRecord testSchema obj = decodeFields testSchema obj := by
    rw [decodeRecord, hres, hrt, List.append_nil]
  have hnds : (schemaNames testSchema).Nodup := by decide
  have hiff : ∀ n, n ∈ recordNames (decodeFields testSchema obj)
      ↔ n ∈ obj.map Prod.fst := by
    intro n
    constructor
    · intro hmem
      obtain ⟨t, j, v, _, hg, _⟩ := (mem_decodeFields_iff hnds).mp hmem
      exact mem_of_getField_some hg
    · intro hn
      obtain ⟨kv, hkv, he⟩ := List.mem_map.mp hn
      have hkv' : (n, kv.2) ∈ obj := by
        rw [← he]
        simpa using hkv
      have hget : getField obj n = some kv.2 := getField_of_mem_nodup hnodup hkv'
      obtain ⟨t, ht⟩ := lookupSchema_isSome_of_mem (he ▸ hsub kv hkv)
      rcases hc2 : coerce t kv.2 with _ | v
      · exact absurd hc2 (hco kv hkv t (he ▸ ht))
      · exact (mem_decodeFields_iff hnds).mpr ⟨t, kv.2, v, ht, hget, hc2⟩
  have hkeep : (decodeFields testSchema obj).filter (fun f => projectKeep testRule f.1)
      = decodeFields testSchema obj := by
    refine List.filter_eq_self.mpr ?_
    intro f hf
    exact projectKeep_testRule_of_mem
      (mem_schemaNames_of_mem_decodeFields (List.mem_map.mpr ⟨f, hf, rfl⟩))
  obtain ⟨vs, hvs⟩ : ∃ vs, pkValues testRule.pk (decodeRecord testSchema obj) = some vs := by
    apply pkValues_isSome
    intro k hk
    have hk' : k = "id" := by simpa [testRule] using hk
    subst hk'
    apply lookupRec_isSome_of_mem
    rw [hdec]
    exact (hiff "id").mpr hpk
  have hpm : processMessage (some testRule) (some obj)
      = projectAll testRule [decodeRecord testSchema obj] := rfl
  refine ⟨{ eventName := testRule.event, table := testRule.product,
            primaryKeyValue := String.intercalate pkSep (vs.map valueToPkString),
            payload := (decodeRecord testSchema obj).filter
              (fun f => projectKeep testRule f.1) }, ?_, ?_, ?_⟩
  · rw [hpm, projectAll, projectRecord, hvs, projectAll]
  · intro n
    show n ∈ recordNames ((decodeRecord testSchema obj).filter
        (fun f => projectKeep testRule f.1)) ↔ n ∈ obj.map Prod.fst
    rw [hdec, hkeep]
    exact hiff n
  · intro n j t hmem hl
    have hget : getField obj n = some j := getField_of_mem_nodup hnodup hmem
    rcases hc2 : coerce t j with _ | v
    · exact absurd hc2 (hco (n, j) hmem t hl)
    · show lookupRec ((decodeRecord testSchema obj).filter
          (fun f => projectKeep testRule f.1)) n = some v
      rw [hdec, hkeep]
      exact lookupRec_decodeFields hnds hl hget hc2

/-- Witness for C7 on the `{id, gender}` shape from the processor test. -/
theorem c7_subset_fields_exact_witness :
    (∀ kv ∈ [(("id" : String), Json.num 2), ("gender", Json.str "male")],
      splitPath kv.1 = [kv.1] ∧ segIndex? kv.1 = none ∧ kv.1 ≠ "$removedFields")
    ∧ (([(("id" : String), Json.num 2), ("gender", Json.str "male")].map Prod.fst).Nodup)
    ∧ (∀ kv ∈ [(("id" : String), Json.num 2), ("gender", Json.str "male")],
        kv.1 ∈ schemaNames testSchema)
    ∧ (∀ kv ∈ [(("id" : String), Json.num 2), ("gender", Json.str "male")],
        ∀ t, lookupSchema testSchema kv.1 = some t → coerce t kv.2 ≠ none)
    ∧ ∃ ev, processMessage (some testRule)
          (some [("id", Json.num 2), ("gender", Json.str "male")]) = Except.ok [ev]
        ∧ (∀ n, n ∈ recordNames ev.payload
            ↔ n ∈ [(("id" : String), Json.num 2), ("gender", Json.str "male")].map Prod.fst)
        ∧ (∀ n j t, (n, j) ∈ [(("id" : String), Json.num 2), ("gender", Json.str "male")] →
            lookupSchema testSchema n = some t →
            lookupRec ev.payload n = coerce t j) := by
  have hplain : ∀ kv ∈ [(("id" : String), Json.num 2), ("gender", Json.str "male")],
      splitPath kv.1 = [kv.1] ∧ segIndex? kv.1 = none ∧ kv.1 ≠ "$removedFields" := by
    intro kv hkv
    fin_cases hkv <;> exact ⟨rfl, rfl, by decide⟩
  have hco : ∀ kv ∈ [(("id" : String), Json.num 2), ("gender", Json.str "male")],
      ∀ t, lookupSchema testSchema kv.1 = some t → coerce t kv.2 ≠ none := by
    intro kv hkv t ht
    fin_cases hkv
    · cases ht
      simp [coerce, coerceInt]
    · cases ht
      simp [coerce, coerceString]
  refine ⟨hplain, by decide, ?_, hco, ?_⟩
  · intro kv hkv
    fin_cases hkv <;> decide
  · exact c7_subset_fields_exact [("id", Json.num 2), ("gender", Json.str "male")]
      hplain (by decide) (by intro kv hkv; fin_cases hkv <;> decide) hco (by decide)

end GravityDispatcher
